import Mathlib

/-!
Shallow embedding of `src/preprocessing.py` (text segmentation engine of the
TTS sample repository).  Text is modelled as `List Char`; Python `int`
parameters (`min_tokens`, `max_tokens`) are modelled as `Int`; token counts
are `Nat` (Python guarantees them non-negative).  The Python functions
`count_tokens`, `force_split_by_char`, `ensure_max_tokens`,
`balance_segments` and `split_sentences` are translated one by one;
character classes follow the regular expressions in the source.
-/

namespace Preprocessing

/-- Characters of the CJK Unified Ideographs block, regex `[一-鿿]`. -/
def isCJK (c : Char) : Bool :=
  0x4e00 ≤ c.toNat && c.toNat ≤ 0x9fff

/-- ASCII Latin letters, regex `[a-zA-Z]`. -/
def isLatin (c : Char) : Bool :=
  (65 ≤ c.toNat && c.toNat ≤ 90) || (97 ≤ c.toNat && c.toNat ≤ 122)

/-- Python whitespace (`str.strip` / regex `\s` for `str` patterns):
ASCII whitespace and control separators plus the Unicode whitespace
code points, including the ideographic space U+3000. -/
def isSpace (c : Char) : Bool :=
  (9 ≤ c.toNat && c.toNat ≤ 13) || (28 ≤ c.toNat && c.toNat ≤ 32) ||
  c.toNat = 0x85 || c.toNat = 0xA0 || c.toNat = 0x1680 ||
  (0x2000 ≤ c.toNat && c.toNat ≤ 0x200A) || c.toNat = 0x2028 ||
  c.toNat = 0x2029 || c.toNat = 0x202F || c.toNat = 0x205F ||
  c.toNat = 0x3000

/-- Sentence-ending delimiters, regex class `[。.？?！!]`. -/
def isSentenceDelim (c : Char) : Bool :=
  c.toNat = 0x3002 || c.toNat = 46 || c.toNat = 0xFF1F || c.toNat = 63 ||
  c.toNat = 0xFF01 || c.toNat = 33

/-- Clause delimiters, regex class `[，,、；;]`. -/
def isClauseDelim (c : Char) : Bool :=
  c.toNat = 0xFF0C || c.toNat = 44 || c.toNat = 0x3001 ||
  c.toNat = 0xFF1B || c.toNat = 59

/-- The full delimiter class of `clause` mode, regex `[。.？?！!，,、；;]`. -/
def isDelim (c : Char) : Bool :=
  isSentenceDelim c || isClauseDelim c

mutual
/-- Number of maximal runs of Latin letters, i.e.
`len(re.findall(r"[a-zA-Z]+", text))`: scanning from the left, a Latin
letter opens a run and `inLatinRun` consumes the rest of that run. -/
def latinRuns : List Char → Nat
  | [] => 0
  | c :: rest => if isLatin c then 1 + inLatinRun rest else latinRuns rest

/-- Scanner state inside a Latin run: further letters belong to the current
run, the first non-letter closes it. -/
def inLatinRun : List Char → Nat
  | [] => 0
  | c :: rest => if isLatin c then inLatinRun rest else latinRuns rest
end

/-- `count_tokens`: CJK characters count 1 token each, each maximal Latin
run ("English word") counts 1.5 tokens, the word contribution truncated
toward zero (`int(words * 1.5)` = `3 * words / 2` in `Nat`). -/
def count_tokens (t : List Char) : Nat :=
  (t.filter isCJK).length + 3 * latinRuns t / 2

/-- Loop of `force_split_by_char`, carrying the running buffer `current`. -/
def force_split_go (maxT : Int) (cur : List Char) : List Char → List (List Char)
  | [] => if cur = [] then [] else [cur]
  | c :: rest =>
    if (count_tokens (cur ++ [c]) : Int) ≤ maxT then
      force_split_go maxT (cur ++ [c]) rest
    else if cur = [] then
      force_split_go maxT [c] rest
    else
      cur :: force_split_go maxT [c] rest

/-- `force_split_by_char`: greedy character-by-character packing. -/
def force_split_by_char (t : List Char) (maxT : Int) : List (List Char) :=
  force_split_go maxT [] t

/-- Flush the running buffer of `ensure_max_tokens`: buffers that still
exceed `max_tokens` are force-split by character, others are emitted. -/
def flushCur (maxT : Int) (cur : List Char) : List (List Char) :=
  if (count_tokens cur : Int) > maxT then force_split_by_char cur maxT
  else [cur]

/-- Helper of `splitCapture`: first part and remaining parts of
`re.split(r"([，,、；;])", text)`. -/
def splitCaptureCore : List Char → List Char × List (List Char)
  | [] => ([], [])
  | c :: rest =>
    if isClauseDelim c then
      ([], [c] :: (splitCaptureCore rest).1 :: (splitCaptureCore rest).2)
    else
      (c :: (splitCaptureCore rest).1, (splitCaptureCore rest).2)

/-- `re.split(r"([，,、；;])", text)`: pieces between clause delimiters
(possibly empty), with each delimiter kept as its own one-char part. -/
def splitCapture (l : List Char) : List (List Char) :=
  ((splitCaptureCore l).1) :: (splitCaptureCore l).2

/-- Greedy accumulation loop of `ensure_max_tokens` over the parts of
`splitCapture`. -/
def emt_go (maxT : Int) (cur : List Char) : List (List Char) → List (List Char)
  | [] => if cur = [] then [] else flushCur maxT cur
  | p :: ps =>
    if (count_tokens (cur ++ p) : Int) ≤ maxT then
      emt_go maxT (cur ++ p) ps
    else if cur = [] then
      emt_go maxT p ps
    else
      flushCur maxT cur ++ emt_go maxT p ps

/-- `ensure_max_tokens`: return the text whole when already within the
limit, otherwise split on clause punctuation (keeping the delimiters) and
greedily pack, force-splitting oversized buffers by character. -/
def ensure_max_tokens (t : List Char) (maxT : Int) : List (List Char) :=
  if (count_tokens t : Int) ≤ maxT then [t]
  else emt_go maxT [] (splitCapture t)

/-- Step-2 greedy merge loop of `balance_segments`; `curTok` mirrors the
Python `current_tokens` variable, a running sum of the per-piece token
counts (not the token count of the concatenation). -/
def merge_go (maxT : Int) (cur : List Char) (curTok : Nat) :
    List (List Char) → List (List Char)
  | [] => if cur = [] then [] else [cur]
  | p :: ps =>
    if ((curTok + count_tokens p : Nat) : Int) ≤ maxT then
      merge_go maxT (cur ++ p) (curTok + count_tokens p) ps
    else if cur = [] then
      merge_go maxT p (count_tokens p) ps
    else
      cur :: merge_go maxT p (count_tokens p) ps

/-- Step-3 of `balance_segments`: if the final chunk is below `min_tokens`
and merging it into its predecessor stays within `max_tokens`, merge. -/
def tail_fix (minT maxT : Int) (res : List (List Char)) : List (List Char) :=
  match res.reverse with
  | last :: prev :: rest =>
    if (count_tokens last : Int) < minT ∧
        (count_tokens (prev ++ last) : Int) ≤ maxT then
      rest.reverse ++ [prev ++ last]
    else res
  | _ => res

/-- `balance_segments`: flatten through `ensure_max_tokens`, greedily merge
adjacent pieces, then fix up a short last chunk. -/
def balance_segments (segments : List (List Char)) (minT maxT : Int) :
    List (List Char) :=
  match segments with
  | [] => []
  | _ :: _ =>
    match segments.flatMap (fun s => ensure_max_tokens s maxT) with
    | [] => []
    | [a] => [a]
    | atomic => tail_fix minT maxT (merge_go maxT [] 0 atomic)

/-- Scanner for `re.sub(r"([一-鿿])[\s　]+([一-鿿])",
r"\1\n\2", text)`: `prevCJK` records whether the previous character was a
CJK character able to open a match, `ws` buffers the whitespace run seen
since then.  A CJK character arriving after a buffered run completes a
match: the run is replaced by a single newline and scanning resumes after
the consumed right-hand character. -/
def cjkWsSubGo (prevCJK : Bool) (ws : List Char) : List Char → List Char
  | [] => ws
  | c :: rest =>
    if isSpace c then
      if prevCJK then cjkWsSubGo prevCJK (ws ++ [c]) rest
      else ws ++ c :: cjkWsSubGo false [] rest
    else if isCJK c then
      if prevCJK ∧ ws ≠ [] then '\n' :: c :: cjkWsSubGo false [] rest
      else ws ++ c :: cjkWsSubGo true [] rest
    else
      ws ++ c :: cjkWsSubGo false [] rest

/-- The whitespace-between-CJK substitution applied by `split_sentences`. -/
def cjkWsSub (l : List Char) : List Char := cjkWsSubGo false [] l

/-- Helper of `splitOnP`. -/
def splitOnPCore (p : Char → Bool) : List Char → List Char × List (List Char)
  | [] => ([], [])
  | c :: rest =>
    if p c then
      ([], (splitOnPCore p rest).1 :: (splitOnPCore p rest).2)
    else
      (c :: (splitOnPCore p rest).1, (splitOnPCore p rest).2)

/-- Split a character list on every character satisfying `p`, dropping the
delimiters; models both `text.split("\n")` and
`re.split(delimiter_pattern, segment)` for a single-character class. -/
def splitOnP (p : Char → Bool) (l : List Char) : List (List Char) :=
  ((splitOnPCore p l).1) :: (splitOnPCore p l).2

/-- Python `str.strip`: drop whitespace from both ends. -/
def strip (l : List Char) : List Char :=
  ((l.dropWhile isSpace).reverse.dropWhile isSpace).reverse

/-- Body of the `for segment in segments` loop of `split_sentences`: strip
the segment, split it on the mode's delimiter class, keep the stripped
non-empty sub-sentences, and fall back to the whole stripped segment when
the delimiter split yields nothing. -/
def processSegment (delim : Char → Bool) (seg : List Char) : List (List Char) :=
  let s := strip seg
  if s = [] then []
  else
    let subs := (splitOnP delim s).filter (fun x => !x.isEmpty)
    if subs = [] then [s]
    else (subs.map strip).filter (fun x => !x.isEmpty)

/-- The delimiter-segmentation phase of `split_sentences`: whitespace
between CJK characters becomes a newline, the text is split on newlines,
and each segment is processed by `processSegment`. -/
def segmentPhase (delim : Char → Bool) (text : List Char) : List (List Char) :=
  (splitOnP (fun c => c == '\n') (cjkWsSub text)).flatMap (processSegment delim)

def SEGMENT_MODE_RAW : String := "raw"

def SEGMENT_MODE_SENTENCE : String := "sentence"

def SEGMENT_MODE_CLAUSE : String := "clause"

/-- `split_sentences`: raw mode returns the text unchanged; otherwise the
delimiter class is chosen by mode (`clause` adds the clause marks, any
other mode uses the sentence marks) and the balancing pass runs only in
`sentence` mode. -/
def split_sentences (text : List Char) (mode : String) (minT maxT : Int) :
    List (List Char) :=
  if mode = SEGMENT_MODE_RAW then [text]
  else
    let delim := if mode = SEGMENT_MODE_CLAUSE then isDelim else isSentenceDelim
    let sentences := segmentPhase delim text
    if mode = SEGMENT_MODE_SENTENCE then balance_segments sentences minT maxT
    else sentences

/-- Leading punctuation stripped by the normalizer: delimiters, colons and
brackets (the class asserted by `test_preprocessing.py`). -/
def punctLead (c : Char) : Bool :=
  isSentenceDelim c || isClauseDelim c || c.toNat = 0xFF1A || c.toNat = 58 ||
  (0x300C ≤ c.toNat && c.toNat ≤ 0x300F) || c.toNat = 0xFF08 ||
  c.toNat = 0xFF09 || c.toNat = 40 || c.toNat = 41 || c.toNat = 91 ||
  c.toNat = 93 || c.toNat = 0x3010 || c.toNat = 0x3011

/-- Trailing punctuation stripped by the normalizer: the clause marks,
colons and brackets, but never the terminal sentence-ending marks. -/
def punctTrail (c : Char) : Bool :=
  isClauseDelim c || c.toNat = 0xFF1A || c.toNat = 58 ||
  (0x300C ≤ c.toNat && c.toNat ≤ 0x300F) || c.toNat = 0xFF08 ||
  c.toNat = 0xFF09 || c.toNat = 40 || c.toNat = 41 || c.toNat = 91 ||
  c.toNat = 93 || c.toNat = 0x3010 || c.toNat = 0x3011

/-- Modelled from the spec: the punctuation normalizer `strip_punctuation`
is imported by `test_preprocessing.py` but missing from
`src/preprocessing.py`.  Spec section 4.5: strip all leading
punctuation/bracket characters repeatedly from the front; from the back
strip only non-terminal (clause/bracket) punctuation, stopping at a
terminal sentence-ending mark, which is retained. -/
def strip_punctuation (s : List Char) : List Char :=
  ((s.dropWhile punctLead).reverse.dropWhile punctTrail).reverse

/-- Modelled from the spec: section 9 resolves the open integration
question by running the normalizer as a mandatory final pass over every
chunk leaving `split_sentences`, dropping chunks that normalize to the
empty span (section 4.5). -/
def split_sentences_normalized (text : List Char) (mode : String)
    (minT maxT : Int) : List (List Char) :=
  ((split_sentences text mode minT maxT).map strip_punctuation).filter
    (fun s => !s.isEmpty)

/-- A character that survives the content filter of property P2: neither a
delimiter of the class `[。.？?！!，,、；;]` nor whitespace. -/
def keep (c : Char) : Bool := !(isDelim c || isSpace c)

/-- Delete all delimiter and whitespace characters, the comparison map of
the content-preservation property P2. -/
def filterKeep (l : List Char) : List Char := l.filter keep

/-- Number of characters that start a maximal Latin run: a Latin letter
whose predecessor (tracked by `prev`) is not a Latin letter.  This is the
spec's wording "count maximal runs of Latin letters as words". -/
def wordStartsFrom (prev : Bool) : List Char → Nat
  | [] => 0
  | c :: rest =>
    (if isLatin c && !prev then 1 else 0) + wordStartsFrom (isLatin c) rest

/-- The token formula as the spec words it (claim C9): the number of CJK
Unified Ideographs plus the floor of 1.5 times the number of maximal runs
of ASCII Latin letters. -/
def count_tokens_spec (t : List Char) : Nat :=
  (t.filter isCJK).length + 3 * wordStartsFrom false t / 2

/-! ### Concatenation lemmas: every stage of the splitter is
concatenation-preserving. -/

theorem splitCaptureCore_join (l : List Char) :
    (splitCaptureCore l).1 ++ (splitCaptureCore l).2.flatten = l := by
  induction l with
  | nil => simp [splitCaptureCore]
  | cons c rest ih =>
    by_cases h : isClauseDelim c <;> simp [splitCaptureCore, h, ih]

theorem splitCapture_join (l : List Char) : (splitCapture l).flatten = l := by
  simpa [splitCapture] using splitCaptureCore_join l

theorem splitOnPCore_join (p : Char → Bool) (hp : ∀ c, p c = true → keep c = false)
    (l : List Char) :
    (((splitOnPCore p l).1 :: (splitOnPCore p l).2).map filterKeep).flatten =
      filterKeep l := by
  induction l with
  | nil => simp [splitOnPCore, filterKeep]
  | cons c rest ih =>
    simp only [List.map_cons, List.flatten_cons] at ih ⊢
    by_cases h : p c
    · have hk : keep c = false := hp c h
      simp [splitOnPCore, h, filterKeep, List.filter_cons, hk] at ih ⊢
      exact ih
    · by_cases hk : keep c <;>
        simp [splitOnPCore, h, filterKeep, List.filter_cons, hk] at ih ⊢ <;>
        simp [ih]

theorem force_split_go_join (maxT : Int) (l : List Char) :
    ∀ cur : List Char, (force_split_go maxT cur l).flatten = cur ++ l := by
  induction l with
  | nil =>
    intro cur
    by_cases h : cur = [] <;> simp [force_split_go, h]
  | cons c rest ih =>
    intro cur
    by_cases h1 : (count_tokens (cur ++ [c]) : Int) ≤ maxT
    · simp [force_split_go, h1, ih]
    · by_cases h2 : cur = [] <;> simp [force_split_go, h1, h2, ih]

theorem force_split_by_char_join (t : List Char) (maxT : Int) :
    (force_split_by_char t maxT).flatten = t := by
  simpa using force_split_go_join maxT t []

theorem flushCur_join (maxT : Int) (cur : List Char) :
    (flushCur maxT cur).flatten = cur := by
  by_cases h : (count_tokens cur : Int) > maxT <;>
    simp [flushCur, h, force_split_by_char_join]

theorem emt_go_join (maxT : Int) (ps : List (List Char)) :
    ∀ cur : List Char, (emt_go maxT cur ps).flatten = cur ++ ps.flatten := by
  induction ps with
  | nil =>
    intro cur
    by_cases h : cur = [] <;> simp [emt_go, h, flushCur_join]
  | cons p ps ih =>
    intro cur
    by_cases h1 : (count_tokens (cur ++ p) : Int) ≤ maxT
    · simp [emt_go, h1, ih]
    · by_cases h2 : cur = [] <;> simp [emt_go, h1, h2, ih, flushCur_join]

theorem ensure_max_tokens_join (t : List Char) (maxT : Int) :
    (ensure_max_tokens t maxT).flatten = t := by
  by_cases h : (count_tokens t : Int) ≤ maxT
  · simp [ensure_max_tokens, h]
  · simp [ensure_max_tokens, h, emt_go_join, splitCapture_join]

theorem merge_go_join (maxT : Int) (ps : List (List Char)) :
    ∀ (cur : List Char) (curTok : Nat),
      (merge_go maxT cur curTok ps).flatten = cur ++ ps.flatten := by
  induction ps with
  | nil =>
    intro cur curTok
    by_cases h : cur = [] <;> simp [merge_go, h]
  | cons p ps ih =>
    intro cur curTok
    unfold merge_go
    split
    · simp [ih]
    · split <;> simp_all [ih]

theorem tail_fix_join (minT maxT : Int) (res : List (List Char)) :
    (tail_fix minT maxT res).flatten = res.flatten := by
  unfold tail_fix
  cases hr : res.reverse with
  | nil => rfl
  | cons last tl =>
    cases tl with
    | nil => rfl
    | cons prev rest =>
      have hres : res = rest.reverse ++ [prev, last] := by
        have := congrArg List.reverse hr
        simpa using this
      by_cases h : (count_tokens last : Int) < minT ∧
          (count_tokens (prev ++ last) : Int) ≤ maxT
      · simp [h, hres]
      · simp [h]

theorem flatMap_ensure_join (segs : List (List Char)) (maxT : Int) :
    ((segs.flatMap fun s => ensure_max_tokens s maxT).flatten) = segs.flatten := by
  induction segs with
  | nil => simp
  | cons s segs ih => simp [ih, ensure_max_tokens_join]

theorem balance_segments_join (segs : List (List Char)) (minT maxT : Int) :
    (balance_segments segs minT maxT).flatten = segs.flatten := by
  unfold balance_segments
  cases segs with
  | nil => rfl
  | cons s₀ rest =>
    cases hA : ((s₀ :: rest).flatMap fun s => ensure_max_tokens s maxT) with
    | nil =>
      have := flatMap_ensure_join (s₀ :: rest) maxT
      rw [hA] at this
      simpa using this.symm
    | cons a tl =>
      cases tl with
      | nil =>
        have := flatMap_ensure_join (s₀ :: rest) maxT
        rw [hA] at this
        simpa using this
      | cons b tl' =>
        have := flatMap_ensure_join (s₀ :: rest) maxT
        rw [hA] at this
        rw [tail_fix_join, merge_go_join]
        simpa using this

/-! ### Content preservation: the only characters any stage deletes are
delimiters and whitespace. -/

theorem keep_of_space {c : Char} (h : isSpace c = true) : keep c = false := by
  simp [keep, h]

theorem keep_of_delim {c : Char} (h : isDelim c = true) : keep c = false := by
  simp [keep, h]

theorem filterKeep_append (a b : List Char) :
    filterKeep (a ++ b) = filterKeep a ++ filterKeep b := by
  simp [filterKeep]

theorem filterKeep_space_list {ws : List Char}
    (h : ∀ c ∈ ws, isSpace c = true) : filterKeep ws = [] := by
  simp only [filterKeep, List.filter_eq_nil_iff]
  intro c hc
  simp [keep_of_space (h c hc)]

theorem filterKeep_cons (c : Char) (l : List Char) :
    filterKeep (c :: l) = if keep c then c :: filterKeep l else filterKeep l := by
  simp [filterKeep, List.filter_cons]

theorem filterKeep_cjkWsSubGo (l : List Char) :
    ∀ (prev : Bool) (ws : List Char), (∀ c ∈ ws, isSpace c = true) →
      filterKeep (cjkWsSubGo prev ws l) = filterKeep l := by
  induction l with
  | nil =>
    intro prev ws hws
    show filterKeep ws = filterKeep []
    rw [filterKeep_space_list hws]
    rfl
  | cons c rest ih =>
    intro prev ws hws
    have hkc_of_space : isSpace c = true → filterKeep (c :: rest) = filterKeep rest := by
      intro h
      rw [filterKeep_cons, if_neg]
      simp [keep_of_space h]
    by_cases hs : isSpace c
    · by_cases hp : prev = true
      · have hws' : ∀ x ∈ ws ++ [c], isSpace x = true := by
          intro x hx
          rcases List.mem_append.1 hx with h | h
          · exact hws x h
          · simpa [List.mem_singleton.1 h] using hs
        calc filterKeep (cjkWsSubGo prev ws (c :: rest))
            = filterKeep (cjkWsSubGo prev (ws ++ [c]) rest) := by
              simp [cjkWsSubGo, hs, hp]
          _ = filterKeep rest := ih prev _ hws'
          _ = filterKeep (c :: rest) := (hkc_of_space hs).symm
      · have hp' : prev = false := by simpa using hp
        calc filterKeep (cjkWsSubGo prev ws (c :: rest))
            = filterKeep (ws ++ c :: cjkWsSubGo false [] rest) := by
              simp [cjkWsSubGo, hs, hp']
          _ = filterKeep ws ++ filterKeep (c :: cjkWsSubGo false [] rest) :=
              filterKeep_append _ _
          _ = filterKeep (c :: rest) := by
              rw [filterKeep_space_list hws, filterKeep_cons, filterKeep_cons,
                ih false [] (by simp)]
              simp
    · by_cases hm : isCJK c = true ∧ prev = true ∧ ws ≠ []
      · calc filterKeep (cjkWsSubGo prev ws (c :: rest))
            = filterKeep ('\n' :: c :: cjkWsSubGo false [] rest) := by
              simp [cjkWsSubGo, hs, hm.1, hm.2.1, hm.2.2]
          _ = filterKeep (c :: rest) := by
              rw [filterKeep_cons, if_neg (by decide), filterKeep_cons,
                filterKeep_cons, ih false [] (by simp)]
      · have hgo : cjkWsSubGo prev ws (c :: rest) =
            ws ++ c :: cjkWsSubGo (isCJK c) [] rest := by
          by_cases hc : isCJK c
          · have hm' : ¬(prev = true ∧ ws ≠ []) := fun h => hm ⟨hc, h⟩
            simp [cjkWsSubGo, hs, hc, hm']
          · simp [cjkWsSubGo, hs, hc]
        calc filterKeep (cjkWsSubGo prev ws (c :: rest))
            = filterKeep ws ++ filterKeep (c :: cjkWsSubGo (isCJK c) [] rest) := by
              rw [hgo, filterKeep_append]
          _ = filterKeep (c :: rest) := by
              rw [filterKeep_space_list hws, filterKeep_cons, filterKeep_cons,
                ih (isCJK c) [] (by simp)]
              simp

theorem filterKeep_cjkWsSub (l : List Char) :
    filterKeep (cjkWsSub l) = filterKeep l :=
  filterKeep_cjkWsSubGo l false [] (by simp)

theorem filterKeep_reverse (l : List Char) :
    filterKeep l.reverse = (filterKeep l).reverse := by
  simp [filterKeep, List.filter_reverse]

theorem filterKeep_dropWhile_space (l : List Char) :
    filterKeep (l.dropWhile isSpace) = filterKeep l := by
  induction l with
  | nil => rfl
  | cons c rest ih =>
    by_cases h : isSpace c
    · rw [List.dropWhile_cons, if_pos h, ih, filterKeep_cons,
        if_neg (by simp [keep_of_space h])]
    · rw [List.dropWhile_cons, if_neg (by simp [h])]

theorem filterKeep_strip (l : List Char) : filterKeep (strip l) = filterKeep l := by
  unfold strip
  rw [filterKeep_reverse, filterKeep_dropWhile_space, filterKeep_reverse,
    List.reverse_reverse, filterKeep_dropWhile_space]

theorem flatten_filter_nonempty (L : List (List Char)) :
    (L.filter fun x => !x.isEmpty).flatten = L.flatten := by
  induction L with
  | nil => rfl
  | cons h t ih =>
    by_cases hh : h.isEmpty
    · have : h = [] := by simpa [List.isEmpty_iff] using hh
      simp [List.filter_cons, hh, ih, this]
    · simp [List.filter_cons, hh, ih]

theorem filterKeep_flatten (L : List (List Char)) :
    filterKeep L.flatten = (L.map filterKeep).flatten := by
  induction L with
  | nil => rfl
  | cons h t ih => simp [filterKeep_append, ih]

theorem filterKeep_splitOnP_flatten (p : Char → Bool)
    (hp : ∀ c, p c = true → keep c = false) (l : List Char) :
    filterKeep (splitOnP p l).flatten = filterKeep l := by
  rw [filterKeep_flatten]
  simpa [splitOnP] using splitOnPCore_join p hp l

theorem filterKeep_processSegment (delim : Char → Bool)
    (hd : ∀ c, delim c = true → keep c = false) (seg : List Char) :
    filterKeep (processSegment delim seg).flatten = filterKeep seg := by
  unfold processSegment
  by_cases hempty : strip seg = []
  · rw [if_pos hempty, ← filterKeep_strip seg, hempty]
    rfl
  · rw [if_neg hempty]
    by_cases hsubs : (splitOnP delim (strip seg)).filter (fun x => !x.isEmpty) = []
    · rw [if_pos hsubs]
      simp [filterKeep_strip seg]
    · rw [if_neg hsubs]
      rw [flatten_filter_nonempty, filterKeep_flatten, List.map_map]
      have hmap : ((splitOnP delim (strip seg)).filter fun x => !x.isEmpty).map
            (filterKeep ∘ strip) =
          ((splitOnP delim (strip seg)).filter fun x => !x.isEmpty).map
            filterKeep := by
        apply List.map_congr_left
        intro x _
        exact filterKeep_strip x
      rw [hmap, ← filterKeep_flatten, flatten_filter_nonempty,
        filterKeep_splitOnP_flatten delim hd, filterKeep_strip]

theorem filterKeep_segmentPhase (delim : Char → Bool)
    (hd : ∀ c, delim c = true → keep c = false) (text : List Char) :
    filterKeep (segmentPhase delim text).flatten = filterKeep text := by
  unfold segmentPhase
  have haux : ∀ L : List (List Char),
      filterKeep (L.flatMap (processSegment delim)).flatten =
        (L.map filterKeep).flatten := by
    intro L
    induction L with
    | nil => rfl
    | cons h t ih =>
      simp only [List.flatMap_cons, List.flatten_append, filterKeep_append,
        List.map_cons, List.flatten_cons, ih,
        filterKeep_processSegment delim hd h]
  rw [haux, ← filterKeep_flatten]
  rw [filterKeep_splitOnP_flatten _ (fun c hc => by
    have : c = '\n' := by simpa using hc
    subst this
    decide)]
  exact filterKeep_cjkWsSub text

/-! ### Mode dispatch of `split_sentences`. -/

theorem split_sentences_sentence_eq (text : List Char) (minT maxT : Int) :
    split_sentences text SEGMENT_MODE_SENTENCE minT maxT =
      balance_segments (segmentPhase isSentenceDelim text) minT maxT := rfl

theorem split_sentences_clause_eq (text : List Char) (minT maxT : Int) :
    split_sentences text SEGMENT_MODE_CLAUSE minT maxT =
      segmentPhase isDelim text := rfl

theorem sentenceDelim_not_keep (c : Char) (h : isSentenceDelim c = true) :
    keep c = false :=
  keep_of_delim (by simp [isDelim, h])

theorem delim_not_keep (c : Char) (h : isDelim c = true) : keep c = false :=
  keep_of_delim h

/-- Claim C2: deleting every delimiter character of the class
`[。.？?！!，,、；;]` and every whitespace character from the input yields
exactly the same character sequence as deleting those characters from the
concatenation of all chunks returned by
`split_sentences(text, sentence, min_tokens, max_tokens)`. -/
theorem split_sentences_sentence_preserves_content (text : List Char)
    (minT maxT : Int) :
    filterKeep (split_sentences text SEGMENT_MODE_SENTENCE minT maxT).flatten =
      filterKeep text := by
  rw [split_sentences_sentence_eq, balance_segments_join,
    filterKeep_segmentPhase isSentenceDelim sentenceDelim_not_keep]

/-- Claim C8: `raw` mode returns the input unchanged as the sole chunk for
every text and every `min_tokens`/`max_tokens`, bypassing every other
processing stage. -/
theorem split_sentences_raw_eq (text : List Char) (minT maxT : Int) :
    split_sentences text SEGMENT_MODE_RAW minT maxT = [text] := rfl

/-- Claim C10: on the empty string, `split_sentences` returns the empty
list in both `sentence` and `clause` mode, for every `min_tokens` and
`max_tokens`; in particular it returns normally and no chunk at all (so
certainly no empty-string chunk) is emitted. -/
theorem split_sentences_empty (minT maxT : Int) :
    split_sentences [] SEGMENT_MODE_SENTENCE minT maxT = [] ∧
      split_sentences [] SEGMENT_MODE_CLAUSE minT maxT = [] :=
  ⟨rfl, rfl⟩

/-- Claim C1 fails on the code: on the input `a一。一b` in `sentence` mode
with `min_tokens = 1` and `max_tokens = 4`, `split_sentences` returns the
single chunk `a一一b` whose token count is `5 > 4`.  The greedy merge of
`balance_segments` admits the merge because the cached sum of the two
pieces' token counts is `2 + 2 = 4 ≤ 4`, but `count_tokens` of the merged
chunk is `5`: the two one-letter words contributed `int(1.5) = 1` token
each separately, while together they weigh `int(2 * 1.5) = 3`.  The chunk
exceeds the hard ceiling that the docstring of `balance_segments`
guarantees ("each guaranteed <= max_tokens"). -/
theorem split_sentences_max_tokens_violation :
    split_sentences ['a', '一', '。', '一', 'b'] SEGMENT_MODE_SENTENCE 1 4 =
        [['a', '一', '一', 'b']] ∧
      count_tokens ['a', '一', '一', 'b'] = 5 ∧
      ¬((count_tokens ['a', '一', '一', 'b'] : Int) ≤ 4) := by
  refine ⟨by decide, by decide, by decide⟩

/-- In `clause` mode no balancing pass runs at all, so the hard ceiling is
not enforced either: `一一` with `max_tokens = 1` comes back whole with two
tokens. -/
theorem split_sentences_clause_mode_unbounded :
    split_sentences ['一', '一'] SEGMENT_MODE_CLAUSE 1 1 = [['一', '一']] ∧
      ¬((count_tokens ['一', '一'] : Int) ≤ 1) := by
  refine ⟨by decide, by decide⟩

/-- Claim C6 fails on the code: an unrecognized mode string does not raise;
`split_sentences` silently returns a normal segmentation (the sentence
delimiter class, without the balancing pass). -/
theorem split_sentences_unknown_mode_cex :
    split_sentences ['一', '。', '二'] "bogus" 60 80 = [['一'], ['二']] := by
  decide

/-- Claim C6 amended: for every mode other than `raw`, `clause` and
`sentence`, `split_sentences` silently falls back to splitting on the
sentence-ending delimiter class without the balancing pass, instead of
failing fast. -/
theorem split_sentences_unknown_mode_fallback (text : List Char)
    (mode : String) (minT maxT : Int) (h1 : mode ≠ SEGMENT_MODE_RAW)
    (h2 : mode ≠ SEGMENT_MODE_CLAUSE) (h3 : mode ≠ SEGMENT_MODE_SENTENCE) :
    split_sentences text mode minT maxT = segmentPhase isSentenceDelim text := by
  unfold split_sentences
  rw [if_neg h1, if_neg h2, if_neg h3]

theorem split_sentences_unknown_mode_fallback_witness :
    ("bogus" ≠ SEGMENT_MODE_RAW ∧ "bogus" ≠ SEGMENT_MODE_CLAUSE ∧
        "bogus" ≠ SEGMENT_MODE_SENTENCE) ∧
      split_sentences ['一', '。', '二'] "bogus" 60 80 =
        segmentPhase isSentenceDelim ['一', '。', '二'] :=
  ⟨by decide,
    split_sentences_unknown_mode_fallback ['一', '。', '二'] "bogus" 60 80
      (by decide) (by decide) (by decide)⟩

/-! ### The token estimator (claim C9). -/

theorem latinRuns_eq_wordStartsFrom (l : List Char) :
    latinRuns l = wordStartsFrom false l ∧
      inLatinRun l = wordStartsFrom true l := by
  induction l with
  | nil => exact ⟨rfl, rfl⟩
  | cons c rest ih =>
    by_cases h : isLatin c
    · constructor
      · simp [latinRuns, wordStartsFrom, h, ih.2]
      · simp [inLatinRun, wordStartsFrom, h, ih.2]
    · constructor
      · simp [latinRuns, wordStartsFrom, h, ih.1]
      · simp [inLatinRun, wordStartsFrom, h, ih.1]

/-- Claim C9: `count_tokens` equals the number of characters in the CJK
Unified Ideographs block plus the floor of 1.5 times the number of maximal
runs of ASCII Latin letters (`count_tokens_spec`, the spec's formula with
the runs counted by their starting positions), and the result is a
non-negative integer. -/
theorem count_tokens_eq_spec (t : List Char) :
    count_tokens t = count_tokens_spec t ∧ 0 ≤ (count_tokens t : Int) := by
  refine ⟨?_, by positivity⟩
  unfold count_tokens count_tokens_spec
  rw [(latinRuns_eq_wordStartsFrom t).1]

/-! ### Hard-limit bound of `ensure_max_tokens` (claim C4). -/

theorem count_tokens_nil : count_tokens [] = 0 := rfl

theorem cjk_latin_disjoint (c : Char) :
    ¬(isCJK c = true ∧ isLatin c = true) := by
  rintro ⟨h1, h2⟩
  simp [isCJK, isLatin] at h1 h2
  omega

theorem count_tokens_single (c : Char) : count_tokens [c] ≤ 1 := by
  by_cases hc : isCJK c
  · by_cases hl : isLatin c
    · exact absurd ⟨hc, hl⟩ (cjk_latin_disjoint c)
    · simp [count_tokens, List.filter_cons, hc, latinRuns, hl]
  · by_cases hl : isLatin c
    · simp [count_tokens, List.filter_cons, hc, latinRuns, hl, inLatinRun]
    · simp [count_tokens, List.filter_cons, hc, latinRuns, hl]

theorem force_split_go_bound (maxT : Int) (hmax : 1 ≤ maxT) (l : List Char) :
    ∀ cur : List Char, (count_tokens cur : Int) ≤ maxT →
      ∀ s ∈ force_split_go maxT cur l, (count_tokens s : Int) ≤ maxT := by
  induction l with
  | nil =>
    intro cur hcur s hs
    unfold force_split_go at hs
    by_cases h : cur = []
    · rw [if_pos h] at hs
      simp at hs
    · rw [if_neg h] at hs
      rw [List.mem_singleton.1 hs]
      exact hcur
  | cons c rest ih =>
    intro cur hcur s hs
    have hc : (count_tokens [c] : Int) ≤ maxT := by
      have := count_tokens_single c
      omega
    unfold force_split_go at hs
    by_cases h1 : (count_tokens (cur ++ [c]) : Int) ≤ maxT
    · rw [if_pos h1] at hs
      exact ih _ h1 s hs
    · rw [if_neg h1] at hs
      by_cases h2 : cur = []
      · rw [if_pos h2] at hs
        exact ih _ hc s hs
      · rw [if_neg h2] at hs
        rcases List.mem_cons.1 hs with rfl | hs'
        · exact hcur
        · exact ih _ hc s hs'

theorem flushCur_bound (maxT : Int) (hmax : 1 ≤ maxT) (cur : List Char) :
    ∀ s ∈ flushCur maxT cur, (count_tokens s : Int) ≤ maxT := by
  intro s hs
  unfold flushCur at hs
  by_cases h : (count_tokens cur : Int) > maxT
  · rw [if_pos h] at hs
    refine force_split_go_bound maxT hmax cur [] ?_ s hs
    rw [count_tokens_nil]
    omega
  · rw [if_neg h] at hs
    rw [List.mem_singleton.1 hs]
    omega

theorem emt_go_bound (maxT : Int) (hmax : 1 ≤ maxT) (ps : List (List Char)) :
    ∀ cur : List Char, ∀ s ∈ emt_go maxT cur ps,
      (count_tokens s : Int) ≤ maxT := by
  induction ps with
  | nil =>
    intro cur s hs
    unfold emt_go at hs
    by_cases h : cur = []
    · rw [if_pos h] at hs
      simp at hs
    · rw [if_neg h] at hs
      exact flushCur_bound maxT hmax cur s hs
  | cons p ps ih =>
    intro cur s hs
    unfold emt_go at hs
    by_cases h1 : (count_tokens (cur ++ p) : Int) ≤ maxT
    · rw [if_pos h1] at hs
      exact ih _ s hs
    · rw [if_neg h1] at hs
      by_cases h2 : cur = []
      · rw [if_pos h2] at hs
        exact ih _ s hs
      · rw [if_neg h2] at hs
        rcases List.mem_append.1 hs with h | h
        · exact flushCur_bound maxT hmax cur s h
        · exact ih _ s h

/-- Claim C4: for every text and every `max_tokens ≥ 1`,
`ensure_max_tokens` returns an ordered list of segments whose token counts
are all at most `max_tokens` and whose concatenation, in order, is exactly
the input text. -/
theorem ensure_max_tokens_bounded_and_concat (t : List Char) (maxT : Int)
    (hmax : 1 ≤ maxT) :
    (∀ s ∈ ensure_max_tokens t maxT, (count_tokens s : Int) ≤ maxT) ∧
      (ensure_max_tokens t maxT).flatten = t := by
  refine ⟨?_, ensure_max_tokens_join t maxT⟩
  intro s hs
  unfold ensure_max_tokens at hs
  by_cases h : (count_tokens t : Int) ≤ maxT
  · rw [if_pos h] at hs
    rw [List.mem_singleton.1 hs]
    exact h
  · rw [if_neg h] at hs
    exact emt_go_bound maxT hmax _ _ s hs

theorem ensure_max_tokens_bounded_and_concat_witness :
    (1 : Int) ≤ 1 ∧
      ((∀ s ∈ ensure_max_tokens ['一', '二'] 1, (count_tokens s : Int) ≤ 1) ∧
        (ensure_max_tokens ['一', '二'] 1).flatten = ['一', '二']) :=
  ⟨by decide, ensure_max_tokens_bounded_and_concat ['一', '二'] 1 (by decide)⟩

/-! ### Where clause delimiters end up in `ensure_max_tokens` (claim C5). -/

theorem latinRuns_append_nonlatin (d : Char) (hd : isLatin d = false)
    (l : List Char) :
    latinRuns (l ++ [d]) = latinRuns l ∧
      inLatinRun (l ++ [d]) = inLatinRun l := by
  induction l with
  | nil =>
    constructor <;> simp [latinRuns, inLatinRun, hd]
  | cons c rest ih =>
    by_cases h : isLatin c <;>
      constructor <;> simp [latinRuns, inLatinRun, h, ih.1, ih.2]

theorem count_tokens_append_nontoken (d : Char) (hcjk : isCJK d = false)
    (hlat : isLatin d = false) (l : List Char) :
    count_tokens (l ++ [d]) = count_tokens l := by
  unfold count_tokens
  rw [List.filter_append, (latinRuns_append_nonlatin d hlat l).1]
  simp [List.filter_cons, hcjk]

theorem clauseDelim_not_token (d : Char) (hd : isClauseDelim d = true) :
    isCJK d = false ∧ isLatin d = false := by
  simp [isClauseDelim] at hd
  constructor <;> simp [isCJK, isLatin] <;> omega

theorem splitCaptureCore_parts (l : List Char) :
    (∀ c ∈ (splitCaptureCore l).1, isClauseDelim c = false) ∧
      (∀ p ∈ (splitCaptureCore l).2,
        (∀ c ∈ p, isClauseDelim c = false) ∨
          ∃ d, p = [d] ∧ isClauseDelim d = true) := by
  induction l with
  | nil => simp [splitCaptureCore]
  | cons c rest ih =>
    by_cases h : isClauseDelim c
    · refine ⟨by simp [splitCaptureCore, h], ?_⟩
      intro p hp
      simp only [splitCaptureCore, h, if_true, List.mem_cons] at hp
      rcases hp with rfl | rfl | hp
      · exact Or.inr ⟨c, rfl, h⟩
      · exact Or.inl ih.1
      · exact ih.2 p hp
    · have h' : isClauseDelim c = false := by simpa using h
      refine ⟨?_, ?_⟩
      · intro x hx
        simp only [splitCaptureCore, h', Bool.false_eq_true, if_false,
          List.mem_cons] at hx
        rcases hx with rfl | hx
        · exact h'
        · exact ih.1 x hx
      · intro p hp
        simp only [splitCaptureCore, h', Bool.false_eq_true, if_false] at hp
        exact ih.2 p hp

theorem take_one_append_left {α : Type} (a b : List α) (ha : a ≠ []) :
    (a ++ b).take 1 = a.take 1 := by
  cases a with
  | nil => exact absurd rfl ha
  | cons x xs => rfl

theorem emt_go_heads (maxT : Int) (ps : List (List Char))
    (hps : ∀ p ∈ ps, (count_tokens p : Int) ≤ maxT ∧
      ((∀ c ∈ p, isClauseDelim c = false) ∨
        ∃ d, p = [d] ∧ isClauseDelim d = true)) :
    ∀ cur : List Char, cur ≠ [] →
      (∀ c ∈ cur.take 1, isClauseDelim c = false) →
      (count_tokens cur : Int) ≤ maxT →
      ∀ s ∈ emt_go maxT cur ps, ∀ c ∈ s.take 1, isClauseDelim c = false := by
  induction ps with
  | nil =>
    intro cur hne hhead hcur s hs
    unfold emt_go at hs
    rw [if_neg hne] at hs
    unfold flushCur at hs
    rw [if_neg (by omega)] at hs
    rw [List.mem_singleton.1 hs]
    exact hhead
  | cons p ps ih =>
    intro cur hne hhead hcur s hs
    obtain ⟨hpcount, hpstruct⟩ := hps p (List.mem_cons_self p ps)
    have hps' : ∀ q ∈ ps, (count_tokens q : Int) ≤ maxT ∧
        ((∀ c ∈ q, isClauseDelim c = false) ∨
          ∃ d, q = [d] ∧ isClauseDelim d = true) :=
      fun q hq => hps q (List.mem_cons_of_mem p hq)
    unfold emt_go at hs
    by_cases h1 : (count_tokens (cur ++ p) : Int) ≤ maxT
    · rw [if_pos h1] at hs
      refine ih hps' (cur ++ p) (by simp [hne]) ?_ h1 s hs
      rw [take_one_append_left cur p hne]
      exact hhead
    · rw [if_neg h1, if_neg hne] at hs
      have hpne : p ≠ [] := by
        rintro rfl
        exact h1 (by simpa using hcur)
      have hphead : ∀ c ∈ p.take 1, isClauseDelim c = false := by
        rcases hpstruct with hall | ⟨d, rfl, hd⟩
        · exact fun c hc => hall c (List.take_subset 1 p hc)
        · exfalso
          apply h1
          rw [count_tokens_append_nontoken d (clauseDelim_not_token d hd).1
            (clauseDelim_not_token d hd).2 cur]
          exact hcur
      rcases List.mem_append.1 hs with h | h
      · unfold flushCur at h
        rw [if_neg (by omega)] at h
        rw [List.mem_singleton.1 h]
        exact hhead
      · exact ih hps' p hpne hphead hpcount s h

/-- Claim C5 amended: when `ensure_max_tokens` splits text at clause
punctuation the delimiter stays attached to the preceding piece — no
returned segment begins with a clause punctuation character — provided the
text itself does not begin with one and every part produced by the
delimiter-keeping split (every maximal clause-punctuation-free piece) is
itself within `max_tokens`.  Without these provisos a segment can begin
with a clause mark (see the counterexample). -/
theorem ensure_max_tokens_delim_attached (t : List Char) (maxT : Int)
    (hparts : ∀ p ∈ splitCapture t, (count_tokens p : Int) ≤ maxT)
    (hhead : ∀ c ∈ t.take 1, isClauseDelim c = false) :
    ∀ s ∈ ensure_max_tokens t maxT, ∀ c ∈ s.take 1,
      isClauseDelim c = false := by
  intro s hs
  unfold ensure_max_tokens at hs
  by_cases h : (count_tokens t : Int) ≤ maxT
  · rw [if_pos h] at hs
    rw [List.mem_singleton.1 hs]
    exact hhead
  · rw [if_neg h] at hs
    have h0 : 0 ≤ maxT := by
      have hmem : (splitCaptureCore t).1 ∈ splitCapture t := by
        simp [splitCapture]
      have hle := hparts _ hmem
      have hnn : (0 : Int) ≤ (count_tokens (splitCaptureCore t).1 : Int) := by
        positivity
      omega
    cases t with
    | nil =>
      refine absurd ?_ h
      rw [count_tokens_nil]
      exact_mod_cast h0
    | cons c0 t0 =>
      have hc0 : isClauseDelim c0 = false := hhead c0 (by simp)
      have hsc : splitCapture (c0 :: t0) =
          (c0 :: (splitCaptureCore t0).1) :: (splitCaptureCore t0).2 := by
        simp [splitCapture, splitCaptureCore, hc0]
      rw [hsc] at hs
      have hp0 : (count_tokens (c0 :: (splitCaptureCore t0).1) : Int) ≤ maxT := by
        refine hparts _ ?_
        rw [hsc]
        exact List.mem_cons_self _ _
      unfold emt_go at hs
      rw [if_pos (by simpa using hp0)] at hs
      refine emt_go_heads maxT (splitCaptureCore t0).2 ?_
        ([] ++ c0 :: (splitCaptureCore t0).1) (by simp) (by simp [hc0])
        (by simpa using hp0) s hs
      intro q hq
      refine ⟨?_, (splitCaptureCore_parts t0).2 q hq⟩
      refine hparts q ?_
      rw [hsc]
      exact List.mem_cons_of_mem _ hq

theorem ensure_max_tokens_delim_attached_witness :
    ((∀ p ∈ splitCapture ['一', '，', '二'], (count_tokens p : Int) ≤ 1) ∧
        (∀ c ∈ (['一', '，', '二'] : List Char).take 1,
          isClauseDelim c = false)) ∧
      ∀ s ∈ ensure_max_tokens ['一', '，', '二'] 1,
        ∀ c ∈ s.take 1, isClauseDelim c = false :=
  ⟨⟨by decide, by decide⟩,
    ensure_max_tokens_delim_attached ['一', '，', '二'] 1 (by decide)
      (by decide)⟩

/-- Claim C5 fails as stated: with `max_tokens = 1` the text `一一，二`
splits into `["一", "一", "，二"]` — the third returned segment begins
with the clause mark `，`, because the piece before the delimiter already
exceeded `max_tokens` on its own, was flushed, and the delimiter then
started the new buffer. -/
theorem ensure_max_tokens_delim_detached_cex :
    (1 : Int) ≤ 1 ∧
      ensure_max_tokens ['一', '一', '，', '二'] 1 =
        [['一'], ['一'], ['，', '二']] ∧
      ¬(∀ s ∈ ensure_max_tokens ['一', '一', '，', '二'] 1,
        ∀ c ∈ s.take 1, isClauseDelim c = false) := by
  refine ⟨by decide, by decide, by decide⟩

/-! ### The punctuation normalizer as a final pass (claims C3 and C7,
settled against the spec-modelled `strip_punctuation`). -/

theorem take_one_dropWhile (p : Char → Bool) (l : List Char) :
    ∀ c ∈ (l.dropWhile p).take 1, p c = false := by
  induction l with
  | nil => simp
  | cons c rest ih =>
    by_cases h : p c
    · rw [List.dropWhile_cons, if_pos h]
      exact ih
    · rw [List.dropWhile_cons, if_neg (by simpa using h)]
      intro x hx
      have : x = c := by simpa using hx
      subst this
      simpa using h

theorem strip_punctuation_head (s : List Char) :
    ∀ c ∈ (strip_punctuation s).take 1, punctLead c = false := by
  unfold strip_punctuation
  set a := s.dropWhile punctLead with ha
  have hsplit : a.reverse.takeWhile punctTrail ++
      a.reverse.dropWhile punctTrail = a.reverse :=
    List.takeWhile_append_dropWhile punctTrail a.reverse
  have haeq : a = (a.reverse.dropWhile punctTrail).reverse ++
      (a.reverse.takeWhile punctTrail).reverse := by
    conv_lhs => rw [← a.reverse_reverse, ← hsplit]
    rw [List.reverse_append]
  intro c hc
  cases hr : (a.reverse.dropWhile punctTrail).reverse with
  | nil =>
    rw [hr] at hc
    simp at hc
  | cons x xs =>
    rw [hr] at hc
    have hc' : c ∈ a.take 1 := by
      rw [haeq, hr, take_one_append_left _ _ (by simp)]
      exact hc
    exact take_one_dropWhile punctLead s c (ha ▸ hc')

/-- Claim C3 (settled against the spec-modelled normalizer): with the
punctuation-normalizing pass applied to every chunk before it is returned,
no chunk of `split_sentences_normalized` begins with a delimiter, colon or
bracket punctuation character, in `sentence` as well as `clause` mode. -/
theorem split_sentences_normalized_no_leading_punct (text : List Char)
    (mode : String) (minT maxT : Int)
    (hmode : mode = SEGMENT_MODE_SENTENCE ∨ mode = SEGMENT_MODE_CLAUSE) :
    ∀ s ∈ split_sentences_normalized text mode minT maxT,
      ∀ c ∈ s.take 1, punctLead c = false := by
  intro s hs
  obtain ⟨hmem, -⟩ := List.mem_filter.1 hs
  obtain ⟨s₀, -, rfl⟩ := List.mem_map.1 hmem
  exact strip_punctuation_head s₀

theorem split_sentences_normalized_no_leading_punct_witness :
    (SEGMENT_MODE_SENTENCE = SEGMENT_MODE_SENTENCE ∨
        SEGMENT_MODE_SENTENCE = SEGMENT_MODE_CLAUSE) ∧
      (['你', '好'] ∈ split_sentences_normalized ['，', '你', '好', '。']
        SEGMENT_MODE_SENTENCE 60 80) ∧
      ('你' ∈ (['你', '好'] : List Char).take 1) ∧
      punctLead '你' = false :=
  ⟨Or.inl rfl, by decide, by decide,
    split_sentences_normalized_no_leading_punct ['，', '你', '好', '。']
      SEGMENT_MODE_SENTENCE 60 80 (Or.inl rfl) ['你', '好'] (by decide)
      '你' (by decide)⟩

/-- Claim C7 (settled against the spec-modelled normalizer): with the
normalizing pass in place, no emitted chunk consists solely of punctuation
characters — every chunk contains a character outside the punctuation
class (a pure-punctuation chunk normalizes to the empty span and is
dropped). -/
theorem split_sentences_normalized_not_pure_punct (text : List Char)
    (mode : String) (minT maxT : Int)
    (hmode : mode = SEGMENT_MODE_SENTENCE ∨ mode = SEGMENT_MODE_CLAUSE) :
    ∀ s ∈ split_sentences_normalized text mode minT maxT,
      ∃ c ∈ s, punctLead c = false := by
  intro s hs
  obtain ⟨hmem, hne'⟩ := List.mem_filter.1 hs
  obtain ⟨s₀, -, rfl⟩ := List.mem_map.1 hmem
  have hne : strip_punctuation s₀ ≠ [] := by
    simpa [List.isEmpty_iff] using hne'
  obtain ⟨x, xs, hxx⟩ := List.exists_cons_of_ne_nil hne
  exact ⟨x, by rw [hxx]; simp,
    strip_punctuation_head s₀ x (by rw [hxx]; simp)⟩

theorem split_sentences_normalized_not_pure_punct_witness :
    (SEGMENT_MODE_SENTENCE = SEGMENT_MODE_SENTENCE ∨
        SEGMENT_MODE_SENTENCE = SEGMENT_MODE_CLAUSE) ∧
      (['你', '好'] ∈ split_sentences_normalized ['，', '你', '好', '。']
        SEGMENT_MODE_SENTENCE 60 80) ∧
      ∃ c ∈ (['你', '好'] : List Char), punctLead c = false :=
  ⟨Or.inl rfl, by decide,
    split_sentences_normalized_not_pure_punct ['，', '你', '好', '。']
      SEGMENT_MODE_SENTENCE 60 80 (Or.inl rfl) ['你', '好'] (by decide)⟩

end Preprocessing
